import Mathlib

/-!
Shallow embedding of `src/emotional_climate.py`: a pipeline that segments a
raw survey dump into blocks, extracts a bracketed feeling label per block,
normalizes the response body, maps response tokens to numeric weights,
averages them per feeling, and ranks feelings by average weight.

Numeric weights are modelled as exact rationals (`ℚ`); Python floats carry
the same values here (1/3, 2/3, ...) up to rounding, and every claim is
about the exact arithmetic.  Fallible Python functions (those that `raise`)
return `Except`/`Option`.  The process-wide list `clean_data_objects` is
modelled by explicit state passing.
-/

namespace EmotionalClimate

/-- Python `\w` word character (ASCII range; the survey data is ASCII). -/
def isWordChar (c : Char) : Bool := c.isAlphanum || c = '_'

/-- Splits a character list into its maximal leading run of word characters
and the remainder (the greedy `\w+` step of the regex). -/
def takeWordRun : List Char → List Char × List Char
  | [] => ([], [])
  | c :: rest =>
    if isWordChar c then
      let p := takeWordRun rest
      (c :: p.1, p.2)
    else
      ([], c :: rest)

/-- `re.findall(r"\[(\w+)\]", data)`: left-to-right, non-overlapping scan.
At a `[` with a nonempty word run followed by `]`, the run is captured and
scanning resumes after the `]`; otherwise scanning advances one character.
Fuel is the length of the list, which bounds the number of steps. -/
def findallAux : Nat → List Char → List String
  | 0, _ => []
  | _, [] => []
  | fuel + 1, c :: rest =>
    if c = '[' then
      match takeWordRun rest with
      | ([], _) => findallAux fuel rest
      | (run, rest') =>
        match rest' with
        | ']' :: rest'' => String.mk run :: findallAux fuel rest''
        | _ => findallAux fuel rest
    else
      findallAux fuel rest

/-- All `[Word]` captures of `data`, in left-to-right order. -/
def findall (data : String) : List String :=
  findallAux data.toList.length data.toList

/-- The two `IndexError` branches of `extract_feeling`. -/
inductive ExtractError where
  | negSubgroup
  | outOfRange
  deriving DecidableEq

/-- `extract_feeling(data, subgroup=0)`: returns the `subgroup`-th bracketed
word.  Raises (`.error`) when `subgroup < 0` or when
`subgroup >= len(re.findall(...))`.  The source's trailing
`if match is not None` branch is dead (`re.findall` never returns `None`),
so the documented empty-string fallback is unreachable. -/
def extract_feeling (data : String) (subgroup : Int := 0) : Except ExtractError String :=
  if h0 : subgroup < 0 then
    .error .negSubgroup
  else
    let ms := findall data
    if h : (ms.length : Int) ≤ subgroup then
      .error .outOfRange
    else
      .ok (ms.get ⟨subgroup.toNat, by omega⟩)

/-- `raw_data.replace("\n", " ")` (single-character replacement). -/
def replaceNewlines (l : List Char) : List Char :=
  l.map fun c => if c = '\n' then ' ' else c

/-- Whitespace stripped by Python `str.strip()`: the characters for which
`str.isspace()` is true (ASCII separators `\x1c`-`\x1f` included, plus the
Unicode space characters). -/
def isPySpace (c : Char) : Bool :=
  c = ' ' || c = '\t' || c = '\n' || c = '\r' || c = '\x0B' || c = '\x0C' ||
  c = '\x1C' || c = '\x1D' || c = '\x1E' || c = '\x1F' ||
  c = '\x85' || c = '\xA0' || c = '\u1680' ||
  ('\u2000' ≤ c && c ≤ '\u200A') ||
  c = '\u2028' || c = '\u2029' || c = '\u202F' || c = '\u205F' || c = '\u3000'

/-- Drops everything up to and including the first `]`, or `none` when no
`]` occurs (Python `find` returns `-1`, so the slice keeps everything). -/
def dropThroughRBracket : List Char → Option (List Char)
  | [] => none
  | c :: rest => if c = ']' then some rest else dropThroughRBracket rest

/-- Python `str.strip()` on a character list. -/
def stripChars (l : List Char) : List Char :=
  ((l.dropWhile isPySpace).reverse.dropWhile isPySpace).reverse

/-- `strip_data(raw_data)`: newlines become spaces, everything up to and
including the first `]` is discarded (nothing when there is no `]`), and
the remainder is stripped of leading/trailing whitespace. -/
def strip_data (raw_data : String) : String :=
  let cleaned := replaceNewlines raw_data.toList
  String.mk (stripChars ((dropThroughRBracket cleaned).getD cleaned))

/-- Python `body.split(" ")`: split on every single space, keeping empty
tokens; the empty string yields one empty token. -/
def splitOnSpaceChar : List Char → List (List Char)
  | [] => [[]]
  | c :: rest =>
    if c = ' ' then
      [] :: splitOnSpaceChar rest
    else
      match splitOnSpaceChar rest with
      | t :: ts => (c :: t) :: ts
      | [] => [[c]]

/-- Rejoins split tokens with single spaces (used to state that
`splitOnSpaceChar` loses nothing). -/
def joinSpace : List (List Char) → List Char
  | [] => []
  | [t] => t
  | t :: ts => t ++ ' ' :: joinSpace ts

/-- The fixed lexicon `{"Never": 0, "Sometimes": 1/3, "Often": 2/3,
"Always": 1}`, as a lookup returning `none` for unmapped tokens. -/
def weight_for_time_interval (t : String) : Option ℚ :=
  if t = "Never" then some 0
  else if t = "Sometimes" then some (1 / 3)
  else if t = "Often" then some (2 / 3)
  else if t = "Always" then some 1
  else none

/-- `find_weights(data)`: maps every space-separated token of `data`
through the lexicon, unmapped tokens becoming the absence marker `none`. -/
def find_weights (data : String) : List (Option ℚ) :=
  (splitOnSpaceChar data.toList).map fun t => weight_for_time_interval (String.mk t)

/-- The `Data` class: one feeling record. -/
structure Data where
  feeling : String
  data : String
  weights : List (Option ℚ)
  average_weight : Option ℚ
  deriving DecidableEq

/-- `Data.__init__`: `weights = []`, `average_weight = 0`. -/
def Data.make (feeling data : String) : Data :=
  { feeling := feeling, data := data, weights := [], average_weight := some 0 }

/-- `np.mean` over a weights list.  `none` stands for the undefined result:
`np.mean([])` is NaN, and a list containing the absence marker `None` has
no numeric mean (numpy fails on it) — both are the undefined value here. -/
def np_mean (ws : List (Option ℚ)) : Option ℚ :=
  if ws = [] ∨ none ∈ ws then none
  else some ((ws.filterMap id).sum / ws.length)

/-- `Data.update_average_weight`. -/
def Data.update_average_weight (d : Data) : Data :=
  { d with average_weight := np_mean d.weights }

/-- `Data.update_weights`: replaces `weights`, then recomputes the
average — one logical step. -/
def Data.update_weights (d : Data) (new_weights : List (Option ℚ)) : Data :=
  Data.update_average_weight { d with weights := new_weights }

/-- `populate_dataset(feeling, feeling_data)`: appends one fresh record to
the registry (the global `clean_data_objects`, passed explicitly). -/
def populate_dataset (objs : List Data) (feeling feeling_data : String) : List Data :=
  objs ++ [Data.make feeling feeling_data]

/-- Whether `extract_feeling` succeeds on `d` with the default subgroup. -/
def extractOk (d : String) : Bool :=
  match extract_feeling d 0 with
  | .ok _ => true
  | .error _ => false

/-- The per-block loop of `clean_data`: first component is the accumulated
`(feeling, body)` pairs in block order, second the diagnostics (one per
block whose label extraction failed; `strip_data` is not attempted for
those blocks and never fails on text). -/
def clean_data_aux : List String → List (String × String) × List ExtractError
  | [] => ([], [])
  | d :: rest =>
    let r := clean_data_aux rest
    match extract_feeling d 0 with
    | .error e => (r.1, e :: r.2)
    | .ok f => ((f, strip_data d) :: r.1, r.2)

/-- `clean_data(raw_data)`: the surviving pairs, or `None` (here `none`)
when no block survived (`if cleaned_data_tuple: return cleaned_data_tuple`
falls through to an implicit `return None`). -/
def clean_data (raw_data : List String) : Option (List (String × String)) :=
  let r := clean_data_aux raw_data
  if r.1 = [] then none else some r.1

/-- Whether `p` is a leading run of `l`. -/
def startsWithChars : List Char → List Char → Bool
  | [], _ => true
  | _ :: _, [] => false
  | p :: ps, c :: cs => p = c && startsWithChars ps cs

/-- Python `str.split(delim)` for a nonempty literal delimiter: splits on
every occurrence, keeping empty tokens.  Fuel is the text length; each
step consumes at least one character. -/
def pySplitAux (delim : List Char) : Nat → List Char → List (List Char)
  | _, [] => [[]]
  | 0, l => [l]
  | fuel + 1, c :: rest =>
    if startsWithChars delim (c :: rest) then
      [] :: pySplitAux delim fuel ((c :: rest).drop delim.length)
    else
      match pySplitAux delim fuel rest with
      | t :: ts => (c :: t) :: ts
      | [] => [[c]]

/-- `sourceText.split(delimiter)`.  Python raises `ValueError` on an empty
separator; the model returns the unsplit text there (the pipeline always
passes the nonempty `"---"`). -/
def pySplit (s delim : String) : List String :=
  if delim = "" then [s]
  else (pySplitAux delim.toList s.toList.length s.toList).map String.mk

/-- Resolves one Python slice endpoint against a list of length `len`:
negative indices count from the end and clamp at 0, positive ones clamp
at `len`. -/
def pySliceIdx (len : Nat) (i : Int) : Nat :=
  if i < 0 then (↑len + i).toNat else min i.toNat len

/-- Python `l[lo:hi]`: the elements from resolved index `lo` up to (but
excluding) resolved index `hi`; empty when they cross.  Total for all
integer endpoints — slicing never raises. -/
def pySlice {α : Type} (l : List α) (lo hi : Int) : List α :=
  (l.take (pySliceIdx l.length hi)).drop (pySliceIdx l.length lo)

/-- The half-open slice `[lo, hi)` read naively over nonnegative positions
(the spec's wording); used to compare the code's slicing against it. -/
def sliceSpecNaive {α : Type} (l : List α) (lo hi : Int) : List α :=
  (l.take hi.toNat).drop lo.toNat

/-- The index-selection step of `get_data_from_file`:
`data[lower_index:upper_index]` when an upper index is supplied, else
`data[lower_index:len(data)]`. -/
def get_data_slice (blocks : List String) (lower : Int) (upper : Option Int) : List String :=
  match upper with
  | some u => pySlice blocks lower u
  | none => pySlice blocks lower (blocks.length : Int)

/-- The pure core of `get_data_from_file` (the file read itself is the
excluded I/O wrapper): split on the delimiter, then select the sub-range. -/
def segment (sourceText delim : String) (lower : Int) (upper : Option Int) : List String :=
  get_data_slice (pySplit sourceText delim) lower upper

/-- Comparison used to sort `(feeling, average_weight)` pairs descending:
`optLE x y` is the model of Python `x <= y` on defined averages.  NaN
(the undefined marker) admits no order in Python; here it is ordered below
every defined value, a modelling choice the ranking claims never touch
(they assume all averages are defined). -/
def optLE (x y : Option ℚ) : Bool :=
  match x, y with
  | none, _ => true
  | some _, none => false
  | some a, some b => decide (a ≤ b)

/-- The descending-by-average comparison on `(feeling, average_weight)`
pairs: `a` may precede `b` when `b`'s average is at most `a`'s. -/
def byAvgDesc (a b : String × Option ℚ) : Bool := optLE b.2 a.2

/-- `order_weights(data_objects)` minus the printing: build the
`(feeling, average_weight)` pairs in registry order and stable-sort them
descending by average weight (`list.sort(key=itemgetter(1), reverse=True)`
is a stable descending sort). -/
def order_weights (data_objects : List Data) : List (String × Option ℚ) :=
  (data_objects.map fun d => (d.feeling, d.average_weight)).mergeSort byAvgDesc

/-- The `(label, body)` pair a block contributes to `clean_data`'s result,
or `none` when label extraction fails and the block is skipped. -/
def survivorPair (d : String) : Option (String × String) :=
  match extract_feeling d 0 with
  | .ok f => some (f, strip_data d)
  | .error _ => none

/-! ### Helper lemmas -/

theorem splitOnSpaceChar_ne_nil (l : List Char) : splitOnSpaceChar l ≠ [] := by
  induction l with
  | nil => simp [splitOnSpaceChar]
  | cons c rest ih =>
    simp only [splitOnSpaceChar]
    split
    · simp
    · split
      · simp
      · simp

theorem joinSpace_cons_cons (c : Char) (t : List Char) (ts : List (List Char)) :
    joinSpace ((c :: t) :: ts) = c :: joinSpace (t :: ts) := by
  cases ts with
  | nil => rfl
  | cons t' ts' => simp [joinSpace]

theorem joinSpace_splitOnSpaceChar (l : List Char) :
    joinSpace (splitOnSpaceChar l) = l := by
  induction l with
  | nil => rfl
  | cons c rest ih =>
    by_cases hc : c = ' '
    · subst hc
      simp only [splitOnSpaceChar, if_pos rfl]
      obtain ⟨t, ts, ht⟩ := List.exists_cons_of_ne_nil (splitOnSpaceChar_ne_nil rest)
      rw [ht]
      rw [ht] at ih
      simpa [joinSpace] using ih
    · simp only [splitOnSpaceChar, if_neg hc]
      obtain ⟨t, ts, ht⟩ := List.exists_cons_of_ne_nil (splitOnSpaceChar_ne_nil rest)
      rw [ht]
      rw [ht] at ih
      rw [joinSpace_cons_cons, ih]

theorem splitOnSpaceChar_length (l : List Char) :
    (splitOnSpaceChar l).length = l.count ' ' + 1 := by
  induction l with
  | nil => simp [splitOnSpaceChar]
  | cons c rest ih =>
    by_cases hc : c = ' '
    · subst hc
      simp [splitOnSpaceChar, List.count_cons, ih]
    · simp only [splitOnSpaceChar, if_neg hc]
      obtain ⟨t, ts, ht⟩ := List.exists_cons_of_ne_nil (splitOnSpaceChar_ne_nil rest)
      rw [ht] at ih ⊢
      simp only [List.length_cons] at ih ⊢
      rw [List.count_cons, if_neg (by simpa using hc), ih]

theorem dropThroughRBracket_eq_none {l : List Char} (h : ']' ∉ l) :
    dropThroughRBracket l = none := by
  induction l with
  | nil => rfl
  | cons c rest ih =>
    simp only [List.mem_cons, not_or] at h
    rw [dropThroughRBracket, if_neg (fun hc : c = ']' => h.1 hc.symm)]
    exact ih h.2

theorem mem_replaceNewlines {l : List Char} (h : ']' ∉ l) :
    ']' ∉ replaceNewlines l := by
  intro hmem
  obtain ⟨c, hc, hfc⟩ := List.mem_map.mp hmem
  by_cases hn : c = '\n'
  · simp [hn] at hfc
  · rw [if_neg hn] at hfc
    exact h (hfc ▸ hc)

theorem isPySpace_newline_to_space (c : Char) :
    isPySpace (if c = '\n' then ' ' else c) = isPySpace c := by
  split
  · subst ‹c = '\n'›
    rfl
  · rfl

theorem forall_isPySpace_replaceNewlines (l : List Char) :
    (∀ c ∈ replaceNewlines l, isPySpace c = true) ↔ ∀ c ∈ l, isPySpace c = true := by
  constructor
  · intro h c hc
    have := h _ (List.mem_map_of_mem (fun c => if c = '\n' then ' ' else c) hc)
    rwa [isPySpace_newline_to_space] at this
  · intro h c hc
    obtain ⟨a, ha, hfa⟩ := List.mem_map.mp hc
    rw [← hfa, isPySpace_newline_to_space]
    exact h a ha

theorem forall_isPySpace_dropWhile (l : List Char) :
    (∀ c ∈ l.dropWhile isPySpace, isPySpace c = true) ↔ ∀ c ∈ l, isPySpace c = true := by
  constructor
  · intro h c hc
    rw [← List.takeWhile_append_dropWhile (p := isPySpace) (l := l)] at hc
    rcases List.mem_append.mp hc with hc | hc
    · exact List.mem_takeWhile_imp hc
    · exact h c hc
  · intro h c hc
    exact h c (List.dropWhile_sublist isPySpace |>.mem hc)

theorem stripChars_eq_nil_iff (l : List Char) :
    stripChars l = [] ↔ ∀ c ∈ l, isPySpace c = true := by
  rw [stripChars, List.reverse_eq_nil_iff, List.dropWhile_eq_nil_iff]
  constructor
  · intro h
    rw [← forall_isPySpace_dropWhile]
    intro c hc
    exact h c (List.mem_reverse.mpr hc)
  · intro h c hc
    exact (forall_isPySpace_dropWhile l).mpr h c (List.mem_reverse.mp hc)

theorem clean_data_aux_eq (raw : List String) :
    (clean_data_aux raw).1 = raw.filterMap survivorPair ∧
    (clean_data_aux raw).2.length = (raw.filter fun d => !extractOk d).length := by
  induction raw with
  | nil => exact ⟨rfl, rfl⟩
  | cons d rest ih =>
    simp only [clean_data_aux, List.filterMap_cons, List.filter_cons]
    cases h : extract_feeling d 0 with
    | error e => simp [survivorPair, extractOk, h, ih.1, ih.2]
    | ok f => simp [survivorPair, extractOk, h, ih.1, ih.2]

theorem optLE_trans : ∀ x y z : Option ℚ, optLE x y → optLE y z → optLE x z := by
  intro x y z
  cases x <;> cases y <;> cases z <;> simp [optLE]
  exact fun h1 h2 => le_trans h1 h2

theorem optLE_total : ∀ x y : Option ℚ, optLE x y || optLE y x := by
  intro x y
  cases x <;> cases y <;> simp [optLE]
  exact le_total _ _

theorem byAvgDesc_trans :
    ∀ a b c : String × Option ℚ, byAvgDesc a b → byAvgDesc b c → byAvgDesc a c :=
  fun _ _ _ h1 h2 => optLE_trans _ _ _ h2 h1

theorem byAvgDesc_total : ∀ a b : String × Option ℚ, byAvgDesc a b || byAvgDesc b a :=
  fun a b => Bool.or_comm (optLE b.2 a.2) (optLE a.2 b.2) ▸ optLE_total b.2 a.2

theorem take_min_length {α : Type} (l : List α) (n : Nat) :
    l.take (min n l.length) = l.take n := by
  rcases le_total n l.length with h | h
  · rw [min_eq_left h]
  · rw [min_eq_right h, List.take_length, List.take_of_length_le h]

theorem drop_min_of_le {α : Type} (l : List α) (L a : Nat) (h : l.length ≤ L) :
    l.drop (min a L) = l.drop a := by
  rcases le_total a L with ha | ha
  · rw [min_eq_left ha]
  · rw [min_eq_right ha, List.drop_eq_nil_of_le h,
      List.drop_eq_nil_of_le (le_trans h ha)]

theorem pySlice_length_le {α : Type} (l : List α) (lo hi : Int) :
    (pySlice l lo hi).length ≤ l.length := by
  simp only [pySlice, List.length_drop, List.length_take]
  omega

theorem find_weights_scenario :
    find_weights "Often Always Often Often Sometimes Never" =
      [some (2 / 3), some 1, some (2 / 3), some (2 / 3), some (1 / 3), some 0] := by
  have hsplit : splitOnSpaceChar ("Often Always Often Often Sometimes Never".toList) =
      ["Often".toList, "Always".toList, "Often".toList, "Often".toList,
        "Sometimes".toList, "Never".toList] := by decide
  rw [find_weights, hsplit]
  simp [weight_for_time_interval]

/-! ### Claim theorems -/

/-- C1 (counterexample): on the spec's own scenario body the average of the
weights `[2/3, 1, 2/3, 2/3, 1/3, 0]` is `5/9 ≈ 0.556`, not the claimed
`11/18 ≈ 0.611`. -/
theorem scenario_average_ne_eleven_eighteenths :
    np_mean (find_weights "Often Always Often Often Sometimes Never") = some (5 / 9) ∧
    ((5 : ℚ) / 9) ≠ 11 / 18 := by
  constructor
  · rw [find_weights_scenario, np_mean, if_neg]
    · norm_num [List.filterMap_cons]
    · simp
  · norm_num

/-- C1 (amended): the single raw scenario block cleans to the pair
`("Supported", "Often Always Often Often Sometimes Never")`, its body maps
to the weights `[2/3, 1, 2/3, 2/3, 1/3, 0]`, and the arithmetic mean of
those weights is `5/9 ≈ 0.556`. -/
theorem scenario_supported_block :
    clean_data ["\nHow do you feel when you're at school? [Supported]\nOften\nAlways\nOften\nOften\nSometimes\nNever"] =
      some [("Supported", "Often Always Often Often Sometimes Never")] ∧
    find_weights "Often Always Often Often Sometimes Never" =
      [some (2 / 3), some 1, some (2 / 3), some (2 / 3), some (1 / 3), some 0] ∧
    np_mean (find_weights "Often Always Often Often Sometimes Never") = some (5 / 9) := by
  refine ⟨by decide, find_weights_scenario, ?_⟩
  rw [find_weights_scenario, np_mean, if_neg]
  · norm_num [List.filterMap_cons]
  · simp

/-- C2: `find_weights` is total on text.  Splitting on single spaces loses
nothing (rejoining with spaces restores the body), the number of tokens is
the number of spaces plus one (empty tokens preserved), the result has one
weight per token in order, lexicon tokens map per the fixed table, and
every other token maps to the absence marker `none`. -/
theorem find_weights_totality (body : String) :
    joinSpace (splitOnSpaceChar body.toList) = body.toList ∧
    (splitOnSpaceChar body.toList).length = body.toList.count ' ' + 1 ∧
    (find_weights body).length = body.toList.count ' ' + 1 ∧
    find_weights body =
      (splitOnSpaceChar body.toList).map (fun t => weight_for_time_interval (String.mk t)) ∧
    (∀ t : String, t ∉ (["Never", "Sometimes", "Often", "Always"] : List String) →
      weight_for_time_interval t = none) ∧
    weight_for_time_interval "Never" = some 0 ∧
    weight_for_time_interval "Sometimes" = some (1 / 3) ∧
    weight_for_time_interval "Often" = some (2 / 3) ∧
    weight_for_time_interval "Always" = some 1 := by
  refine ⟨joinSpace_splitOnSpaceChar _, splitOnSpaceChar_length _, ?_, rfl, ?_, rfl, rfl, rfl, rfl⟩
  · rw [find_weights, List.length_map, splitOnSpaceChar_length]
  · intro t ht
    simp only [List.mem_cons, List.not_mem_nil, or_false, not_or] at ht
    obtain ⟨h1, h2, h3, h4⟩ := ht
    rw [weight_for_time_interval, if_neg h1, if_neg h2, if_neg h3, if_neg h4]

/-- C2 (witness): a token outside the lexicon maps to the absence marker. -/
theorem find_weights_totality_witness : weight_for_time_interval "Velvet" = none :=
  (find_weights_totality "Velvet").2.2.2.2.1 "Velvet" (by decide)

/-- C4: `update_weights` replaces `weights` and recomputes
`average_weight` in the same step, leaving the other fields untouched: the
post-state average is exactly the mean of the full new weights list, an
absence marker (`none`) anywhere in it makes the average undefined (it is
neither skipped nor counted as 0), and an all-numeric nonempty list yields
the arithmetic mean over all entries. -/
theorem update_weights_consistent (d : Data) (new : List (Option ℚ)) :
    (d.update_weights new).weights = new ∧
    (d.update_weights new).average_weight = np_mean new ∧
    (d.update_weights new).feeling = d.feeling ∧
    (d.update_weights new).data = d.data ∧
    (none ∈ new → (d.update_weights new).average_weight = none) ∧
    (new ≠ [] → (∀ w ∈ new, w ≠ none) →
      (d.update_weights new).average_weight = some ((new.filterMap id).sum / new.length)) := by
  refine ⟨rfl, rfl, rfl, rfl, ?_, ?_⟩
  · intro hmem
    simp only [Data.update_weights, Data.update_average_weight, np_mean]
    rw [if_pos (Or.inr hmem)]
  · intro hne hnum
    simp only [Data.update_weights, Data.update_average_weight, np_mean]
    rw [if_neg]
    rintro (h | h)
    · exact hne h
    · exact hnum none h rfl

/-- C4 (witness): a weights list containing the absence marker gets an
undefined average, not one that excludes the marker or counts it as 0. -/
theorem update_weights_consistent_witness :
    ((Data.make "A" "B").update_weights [some 1, none]).average_weight = none :=
  (update_weights_consistent (Data.make "A" "B") [some 1, none]).2.2.2.2.1 (by decide)

/-- C5: for a nonnegative subgroup, `extract_feeling` fails with the
out-of-range `IndexError` exactly when the subgroup is at least the number
of bracketed-word matches; in particular a block with no bracketed token
always fails under the default subgroup 0 instead of falling back to an
empty string. -/
theorem extract_feeling_out_of_range (block : String) (sg : Int) (h : 0 ≤ sg) :
    (extract_feeling block sg = .error .outOfRange ↔ ((findall block).length : Int) ≤ sg) ∧
    (findall block = [] → extract_feeling block 0 = .error .outOfRange) := by
  constructor
  · simp only [extract_feeling]
    rw [dif_neg (show ¬sg < 0 by omega)]
    split
    · simp only [true_iff]
      assumption
    · simp only [reduceCtorEq, false_iff]
      omega
  · intro he
    simp only [extract_feeling]
    rw [dif_neg (show ¬(0 : Int) < 0 by omega), dif_pos (by simp [he])]

/-- C5 (witness): the spec's zero-match boundary example fails with the
out-of-range error. -/
theorem extract_feeling_out_of_range_witness :
    extract_feeling "no brackets here" 0 = .error .outOfRange :=
  (extract_feeling_out_of_range "no brackets here" 0 (by decide)).1.mpr (by decide)

/-- C6: `clean_data` is a best-effort, partial-failure pipeline.  Its
pairs are exactly the `(label, body)` pairs of the blocks whose label
extraction succeeded, in their original order (a failing block contributes
no pair, is not normalized — `survivorPair` only applies `strip_data` on
the success branch — and does not stop later blocks); each failing block
emits exactly one diagnostic; and the returned value is those pairs (or
the absent marker when none survived). -/
theorem clean_data_partial_failure (raw : List String) :
    (clean_data_aux raw).1 = raw.filterMap survivorPair ∧
    (clean_data_aux raw).2.length = (raw.filter fun d => !extractOk d).length ∧
    clean_data raw =
      (if raw.filterMap survivorPair = [] then none else some (raw.filterMap survivorPair)) := by
  refine ⟨(clean_data_aux_eq raw).1, (clean_data_aux_eq raw).2, ?_⟩
  rw [clean_data, (clean_data_aux_eq raw).1]

/-- C7 (counterexample): the record appended by `populate_dataset` has a
defined `average_weight` of 0 (from `Data.__init__`), not an undefined
one as the claim states. -/
theorem populate_dataset_average_defined :
    ((populate_dataset [] "Bored" "Never").map Data.average_weight) = [some 0] ∧
    (some (0 : ℚ) : Option ℚ) ≠ none := by
  exact ⟨by decide, by simp⟩

/-- C7 (amended): `populate_dataset` appends exactly one record with empty
`weights` and `average_weight = 0`: the registry grows by one, the
existing records keep their positions (insertion order is call order), the
new record is last, and a second call with the same label appends a second
record (no deduplication). -/
theorem populate_dataset_registration (objs : List Data) (f b : String) :
    (populate_dataset objs f b).length = objs.length + 1 ∧
    (∀ i : Nat, i < objs.length → (populate_dataset objs f b)[i]? = objs[i]?) ∧
    (populate_dataset objs f b).getLast? =
      some { feeling := f, data := b, weights := [], average_weight := some 0 } ∧
    (populate_dataset (populate_dataset objs f b) f b).length = objs.length + 2 := by
  refine ⟨?_, ?_, ?_, ?_⟩
  · simp [populate_dataset]
  · intro i hi
    exact List.getElem?_append_left hi
  · exact List.getLast?_concat objs
  · simp [populate_dataset]

/-- C7 (witness): a record already in the registry keeps its position. -/
theorem populate_dataset_registration_witness :
    (populate_dataset [Data.make "A" "B"] "L" "D")[0]? = some (Data.make "A" "B") :=
  ((populate_dataset_registration [Data.make "A" "B"] "L" "D").2.1 0 (by decide)).trans
    (by decide)

/-- C8: when label extraction fails on every block, `clean_data` returns
the absent result `none`, which is distinct from `some ps` for every pair
list `ps` (in particular from a non-empty result of empty-string pairs). -/
theorem clean_data_no_survivors (raw : List String)
    (h : ∀ d ∈ raw, extractOk d = false) :
    clean_data raw = none ∧ ∀ ps : List (String × String), clean_data raw ≠ some ps := by
  have hnil : raw.filterMap survivorPair = [] := by
    rw [List.filterMap_eq_nil_iff]
    intro d hd
    have hok := h d hd
    rw [survivorPair]
    rw [extractOk] at hok
    cases he : extract_feeling d 0 with
    | error e => rfl
    | ok f => rw [he] at hok; simp at hok
  have h1 : clean_data raw = none := by
    rw [clean_data, (clean_data_aux_eq raw).1, hnil]
    rfl
  exact ⟨h1, fun ps hps => by rw [h1] at hps; exact Option.noConfusion hps⟩

/-- C8 (witness): a batch whose single block has no bracketed label yields
the absent result. -/
theorem clean_data_no_survivors_witness : clean_data ["no brackets here"] = none :=
  (clean_data_no_survivors ["no brackets here"] (by decide)).1

/-- C9 (counterexample): with the negative lower index `-1` and the upper
index omitted, the slicing step returns only the last block (Python's
end-relative indexing), not the naive half-open slice
`[lowerIndex, upperIndex)` of all blocks that the claim asserts for every
pair of integer indices. -/
theorem segment_negative_index :
    segment "a---b" "---" (-1) none = ["b"] ∧
    sliceSpecNaive (pySplit "a---b" "---") (-1) ((pySplit "a---b" "---").length : Int) =
      ["a", "b"] ∧
    (["b"] : List String) ≠ ["a", "b"] := by
  exact ⟨by decide, by decide, by decide⟩

/-- C9 (amended): for nonnegative indices the slicing step of
`get_data_from_file` returns exactly the half-open slice
`[lowerIndex, upperIndex)` of the delimiter-split blocks (from
`lowerIndex` to the end when the upper index is omitted), out-of-range
indices merely clamp; for arbitrary integer indices (negative ones follow
Python's end-relative reading) the step is total — it never errors — and
always returns a contiguous selection no longer than the block list. -/
theorem segment_slice_behavior (text delim : String) (lo hi : Int) :
    (0 ≤ lo → 0 ≤ hi →
      segment text delim lo (some hi) = sliceSpecNaive (pySplit text delim) lo hi) ∧
    (0 ≤ lo → segment text delim lo none = (pySplit text delim).drop lo.toNat) ∧
    (∀ u : Option Int, (segment text delim lo u).length ≤ (pySplit text delim).length) ∧
    (∀ u : Option Int, ∃ a b : Nat,
      segment text delim lo u = ((pySplit text delim).take b).drop a) := by
  refine ⟨?_, ?_, ?_, ?_⟩
  · intro hlo hhi
    simp only [segment, get_data_slice, pySlice, sliceSpecNaive, pySliceIdx,
      if_neg (show ¬hi < 0 by omega), if_neg (show ¬lo < 0 by omega)]
    rw [take_min_length]
    exact drop_min_of_le _ _ _ (by rw [List.length_take]; omega)
  · intro hlo
    simp only [segment, get_data_slice, pySlice, pySliceIdx,
      if_neg (show ¬((pySplit text delim).length : Int) < 0 by omega),
      if_neg (show ¬lo < 0 by omega)]
    rw [Int.toNat_natCast, min_self, List.take_length]
    rcases le_total lo.toNat (pySplit text delim).length with h | h
    · rw [min_eq_left h]
    · rw [min_eq_right h, List.drop_length, List.drop_eq_nil_of_le h]
  · intro u
    cases u with
    | none => exact pySlice_length_le _ _ _
    | some v => exact pySlice_length_le _ _ _
  · intro u
    cases u with
    | none => exact ⟨_, _, rfl⟩
    | some v => exact ⟨_, _, rfl⟩

/-- C9 (witness): an upper index past the end clamps, yielding the shorter
naive slice. -/
theorem segment_slice_behavior_witness :
    segment "a---b---c" "---" 1 (some 5) = ["b", "c"] :=
  ((segment_slice_behavior "a---b---c" "---" 1 5).1 (by decide) (by decide)).trans (by decide)

/-- C10: on a block with no `]` character, `strip_data` returns the whole
block with newlines replaced by spaces and leading/trailing whitespace
trimmed — nothing is discarded — and the result is empty exactly when the
block is whitespace-only. -/
theorem strip_data_no_bracket (block : String) (h : ']' ∉ block.toList) :
    strip_data block = String.mk (stripChars (replaceNewlines block.toList)) ∧
    (strip_data block = "" ↔ ∀ c ∈ block.toList, isPySpace c = true) := by
  have h2 : dropThroughRBracket (replaceNewlines block.toList) = none :=
    dropThroughRBracket_eq_none (mem_replaceNewlines h)
  have h1 : strip_data block = String.mk (stripChars (replaceNewlines block.toList)) := by
    rw [strip_data]
    rw [h2]
    rfl
  refine ⟨h1, ?_⟩
  rw [h1, show ("" : String) = String.mk [] from rfl]
  constructor
  · intro he
    have := congrArg String.data he
    simp only at this
    exact (forall_isPySpace_replaceNewlines block.toList).mp
      ((stripChars_eq_nil_iff _).mp this)
  · intro hall
    have := (stripChars_eq_nil_iff (replaceNewlines block.toList)).mpr
      ((forall_isPySpace_replaceNewlines block.toList).mpr hall)
    rw [this]

/-- C10 (witness): a bracket-free block is kept whole, newlines become
spaces, and outer whitespace is trimmed. -/
theorem strip_data_no_bracket_witness : strip_data "\nOften x" = "Often x" :=
  ((strip_data_no_bracket "\nOften x" (by decide)).1).trans (by decide)

/-- C3: `order_weights` outputs exactly the registry's
`(feeling, average_weight)` pairs (a permutation); when the averages are
pairwise distinct the output is sorted strictly descending by average
weight; and — with no distinctness assumption, so in particular for
registries with equal averages — records with any given average weight
keep the registry's insertion order (stability: the output's pairs with
that average are the input's pairs with it, in the same order). -/
theorem order_weights_ranking (objs : List Data)
    (_hdef : ∀ d ∈ objs, d.average_weight.isSome = true) :
    (order_weights objs).Perm (objs.map fun d => (d.feeling, d.average_weight)) ∧
    ((objs.map fun d => (d.feeling, d.average_weight)).Pairwise (fun a b => a.2 ≠ b.2) →
      (order_weights objs).Pairwise
        (fun a b => ∀ qa qb : ℚ, a.2 = some qa → b.2 = some qb → qb < qa)) ∧
    (∀ v : ℚ, (order_weights objs).filter (fun p => decide (p.2 = some v)) =
      (objs.map fun d => (d.feeling, d.average_weight)).filter
        (fun p => decide (p.2 = some v))) := by
  simp only [order_weights]
  have hperm : ((objs.map fun d => (d.feeling, d.average_weight)).mergeSort byAvgDesc).Perm
      (objs.map fun d => (d.feeling, d.average_weight)) :=
    List.mergeSort_perm (objs.map fun d => (d.feeling, d.average_weight)) byAvgDesc
  have hsorted : ((objs.map fun d => (d.feeling, d.average_weight)).mergeSort
      byAvgDesc).Pairwise (fun a b => byAvgDesc a b = true) :=
    List.sorted_mergeSort byAvgDesc_trans byAvgDesc_total
      (objs.map fun d => (d.feeling, d.average_weight))
  refine ⟨hperm, ?_, ?_⟩
  · intro hdist
    have hne : ((objs.map fun d => (d.feeling, d.average_weight)).mergeSort
        byAvgDesc).Pairwise (fun a b => a.2 ≠ b.2) :=
      (hperm.pairwise_iff (fun h => Ne.symm h)).mpr hdist
    refine (hsorted.and hne).imp ?_
    rintro ⟨a1, a2⟩ ⟨b1, b2⟩ ⟨hle, hneq⟩ qa qb ha hb
    simp only at ha hb
    subst ha
    subst hb
    have hq : qb ≤ qa := by
      have hc : optLE (some qb) (some qa) = true := hle
      simpa [optLE] using hc
    have hq2 : qb ≠ qa := fun he => hneq (by simp [he])
    exact lt_of_le_of_ne hq hq2
  · intro v
    have hallA : ∀ x ∈ (objs.map fun d => (d.feeling, d.average_weight)).filter
        (fun p => decide (p.2 = some v)), x.2 = some v := by
      intro x hx
      have hx' := List.of_mem_filter hx
      exact of_decide_eq_true hx'
    have hApw : ((objs.map fun d => (d.feeling, d.average_weight)).filter
        (fun p => decide (p.2 = some v))).Pairwise (fun a b => byAvgDesc a b = true) := by
      refine List.pairwise_of_forall_mem_list ?_
      intro a ha b hb
      show optLE b.2 a.2 = true
      rw [hallA a ha, hallA b hb]
      simp [optLE]
    have hsub : List.Sublist
        ((objs.map fun d => (d.feeling, d.average_weight)).filter
          (fun p => decide (p.2 = some v)))
        ((objs.map fun d => (d.feeling, d.average_weight)).mergeSort byAvgDesc) :=
      List.sublist_mergeSort byAvgDesc_trans byAvgDesc_total hApw (List.filter_sublist _)
    have hsub2 : List.Sublist
        ((objs.map fun d => (d.feeling, d.average_weight)).filter
          (fun p => decide (p.2 = some v)))
        (((objs.map fun d => (d.feeling, d.average_weight)).mergeSort byAvgDesc).filter
          (fun p => decide (p.2 = some v))) := by
      have hf := hsub.filter (fun p => decide (p.2 = some v))
      have hid : List.filter (fun p => decide (p.2 = some v))
          ((objs.map fun d => (d.feeling, d.average_weight)).filter
            (fun p => decide (p.2 = some v))) =
          (objs.map fun d => (d.feeling, d.average_weight)).filter
            (fun p => decide (p.2 = some v)) := by
        apply List.filter_eq_self.mpr
        intro a ha
        have hpa := List.of_mem_filter ha
        exact hpa
      rwa [hid] at hf
    have hpermf : ((((objs.map fun d => (d.feeling, d.average_weight)).mergeSort
        byAvgDesc).filter (fun p => decide (p.2 = some v)))).Perm
        ((objs.map fun d => (d.feeling, d.average_weight)).filter
          (fun p => decide (p.2 = some v))) :=
      hperm.filter _
    exact (hsub2.eq_of_length hpermf.length_eq.symm).symm

/-- C3 (witness): on a registry where records "A" and "C" tie with average
1 around a record "B" with average 0, the tied pairs appear in the ranking
in their insertion order. -/
theorem order_weights_ranking_witness :
    (order_weights [⟨"A", "", [], some 1⟩, ⟨"B", "", [], some 0⟩, ⟨"C", "", [], some 1⟩]).filter
      (fun p => decide (p.2 = some (1 : ℚ))) = [("A", some 1), ("C", some 1)] := by
  have h := order_weights_ranking
    [⟨"A", "", [], some 1⟩, ⟨"B", "", [], some 0⟩, ⟨"C", "", [], some 1⟩] (by decide)
  rw [h.2.2 1]
  decide
